import Mathlib

/-!
Verification development for the KRISHNA document indexing and semantic
retrieval engine (`backend/app`): the chunker (`DocumentService.chunk_text`),
the persisted vector index (`VectorStore`), and the retrieval planner
(`PlannerAgent.plan`).

Python strings are embedded as `List Char`, Python `int` as `Nat`/`Int`,
and floating-point scores as `ℚ` (exact rationals standing for the real
numbers the float code approximates).  Fallible paths (Python exceptions)
are embedded with `Option`/`Except`.
-/

namespace Krishna

/-! ### Python string primitives (on `List Char`)

Embeddings of the Python `str` operations used by
`DocumentService.chunk_text`: `str.strip()`, `str.split("\n\n")`,
slicing `s[i : i+m]`, negative-start slicing `s[-n:]`, and
`range(0, n, step)`. -/

/-- Model of the whitespace class of Python `str.strip()` (ASCII part:
space, tab, newline, carriage return, vertical tab, form feed). -/
def pyIsSpace (c : Char) : Bool :=
  c = ' ' || c = '\t' || c = '\n' || c = '\r' || c = Char.ofNat 11 || c = Char.ofNat 12

/-- Python `s.lstrip()`. -/
def pyLStrip (l : List Char) : List Char := l.dropWhile pyIsSpace

/-- Python `s.rstrip()`. -/
def pyRStrip (l : List Char) : List Char := (l.reverse.dropWhile pyIsSpace).reverse

/-- Python `s.strip()`. -/
def pyStrip (l : List Char) : List Char := pyRStrip (pyLStrip l)

/-- Python `s.split("\n\n")`: split on the exact two-character separator,
leftmost non-overlapping occurrences, keeping empty parts (as Python does). -/
def splitNN : List Char → List (List Char)
  | [] => [[]]
  | '\n' :: '\n' :: rest => [] :: splitNN rest
  | c :: rest =>
    match splitNN rest with
    | [] => [[c]]
    | s :: ss => (c :: s) :: ss

/-- Python `s[-n:]` (for `n ≥ 0`): with `n = 0` this is `s[0:]`, the whole
string; otherwise the last `min n (len s)` characters. -/
def pyTakeNeg (n : Nat) (l : List Char) : List Char :=
  if n = 0 then l else l.drop (l.length - n)

/-- Python `s[i : i + m]` for `0 ≤ i`. -/
def pySlice (l : List Char) (i m : Nat) : List Char := (l.drop i).take m

/-- Python `range(0, n, step)` for `step ≥ 1` (Python raises `ValueError`
for `step = 0`; the theorems below always assume `overlap < maximum`,
which keeps the step positive). -/
def pyRange (n step : Nat) : List Nat := List.range' 0 ((n + step - 1) / step) step

/-- The string ends in a non-whitespace character. -/
def endsNonWS (l : List Char) : Prop :=
  ∃ y c, l = y ++ [c] ∧ pyIsSpace c = false

/-! ### `DocumentService.chunk_text`
(`backend/app/services/document_service.py`)

The chunker is embedded as a fold over the paragraph list, carrying the
`(chunks, current)` state of the Python loop.  Each emitted chunk is
tagged with a `Bool` that records whether it was produced by the
hard-split branch (`true`) or by paragraph merging (`false`); the
untagged `chunk_text` is the projection. -/

namespace DocumentService

/-- The two-newline separator `"\n\n"` used when concatenating. -/
def nl2 : List Char := ['\n', '\n']

/-- The hard-split loop
`for i in range(0, len(para), maximum - overlap): chunks.append(para[i : i + maximum])`. -/
def hardSplit (para : List Char) (maximum overlap : Nat) : List (List Char) :=
  (pyRange para.length (maximum - overlap)).map (fun i => pySlice para i maximum)

/-- `if current: chunks.append(current)` — the flush used both inside
the loop and after it.  Flushed chunks are tagged `false` (produced by
paragraph merging, not hard-splitting). -/
def flushCurrent (chunks : List (List Char × Bool)) (current : List Char) :
    List (List Char × Bool) :=
  if current ≠ [] then chunks ++ [(current, false)] else chunks

/-- One iteration of the `for para in paragraphs` loop of `chunk_text`.
State is `(chunks, current)`; chunks are tagged `true` when they come
from the hard-split branch. -/
def chunkStep (target maximum overlap : Nat)
    (st : List (List Char × Bool) × List Char) (para : List Char) :
    List (List Char × Bool) × List Char :=
  let chunks := st.1
  let current := st.2
  if current.length + para.length + 2 ≤ target then
    -- current = f"{current}\n\n{para}".strip()
    (chunks, pyStrip (current ++ nl2 ++ para))
  else
    let chunks1 := flushCurrent chunks current
    if maximum < para.length then
      -- hard split, then current = ""
      (chunks1 ++ (hardSplit para maximum overlap).map (fun c => (c, true)), [])
    else
      match chunks1.getLast? with
      | some last =>
        -- tail = chunks[-1][-overlap:]; current = f"{tail}\n\n{para}".strip()
        (chunks1, pyStrip (pyTakeNeg overlap last.1 ++ nl2 ++ para))
      | none => (chunks1, para)

/-- The paragraph list:
`[p.strip() for p in text.split("\n\n") if p.strip()]`. -/
def paragraphsOf (text : List Char) : List (List Char) :=
  ((splitNN text).map pyStrip).filter (fun p => ¬ p.isEmpty)

/-- `DocumentService.chunk_text`, instrumented with the hard-split tags. -/
def chunkTagged (text : List Char) (target maximum overlap : Nat) :
    List (List Char × Bool) :=
  let paragraphs := paragraphsOf text
  if paragraphs = [] then []
  else
    let st := paragraphs.foldl (chunkStep target maximum overlap) ([], [])
    flushCurrent st.1 st.2

/-- `DocumentService.chunk_text` (`document_service.py`, lines 67–116). -/
def chunk_text (text : List Char) (target maximum overlap : Nat) :
    List (List Char) :=
  (chunkTagged text target maximum overlap).map Prod.fst

/-- The overlap property between adjacent emitted chunks: when both are
regular (produced by paragraph merging), the later one starts with the
left-stripped last `overlap` characters of the earlier one. -/
def adjRel (overlap : Nat) (a b : List Char × Bool) : Prop :=
  a.2 = false → b.2 = false → pyLStrip (pyTakeNeg overlap a.1) <+: b.1

/-- Loop invariant of the `for para in paragraphs` loop: regular chunks
are stripped and non-empty, `current` is stripped, adjacent chunks
satisfy `adjRel`, a non-empty `current` extends the tail of the last
chunk (unless that chunk is hard-split), and an empty `current` means
the last chunk (if any) is hard-split. -/
def StInv (overlap : Nat) (st : List (List Char × Bool) × List Char) : Prop :=
  (∀ c ∈ st.1, c.2 = false → pyStrip c.1 = c.1 ∧ c.1 ≠ []) ∧
  pyStrip st.2 = st.2 ∧
  st.1.Chain' (adjRel overlap) ∧
  (st.2 ≠ [] → st.1 = [] ∨ ∃ last, st.1.getLast? = some last ∧
    (last.2 = true ∨ pyLStrip (pyTakeNeg overlap last.1) <+: st.2)) ∧
  (st.2 = [] → st.1 = [] ∨ ∃ last, st.1.getLast? = some last ∧ last.2 = true)

end DocumentService

/-! ### `VectorStore` (`backend/app/core/vector_store.py`)

The FAISS `IndexFlatIP` is embedded as the list of its rows
(`List (List ℚ)`); `add` appends rows, `ntotal` is the row count, and
exact inner-product search is embedded below.  The embedding engine is
an abstract parameter `embed : String → List ℚ` (the real engine is an
external model; all claims here hold for every such function).
Python dict metadata is embedded as the record of the three keys this
codebase ever writes or reads. -/

/-- The metadata dictionaries used by this codebase: the three keys
written by `DocumentService.process` and read by
`PlannerResult.source_list`; a missing key is `none`. -/
structure Meta where
  chunk_index : Option Nat := none
  filename : Option String := none
  document_id : Option String := none
deriving DecidableEq, Repr

/-- `ChunkRecord` (`vector_store.py`, lines 43–63). -/
structure ChunkRecord where
  chunk_id : Nat
  text : String
  metadata : Meta
deriving DecidableEq, Repr

/-- The JSON dict produced by `ChunkRecord.to_dict` / consumed by
`ChunkRecord.from_dict`; `metadata` is optional because `from_dict`
defaults it (`d.get("metadata", {})`). -/
structure RecordDict where
  chunk_id : Nat
  text : String
  metadata : Option Meta
deriving DecidableEq, Repr

/-- `ChunkRecord.to_dict`. -/
def ChunkRecord.to_dict (r : ChunkRecord) : RecordDict :=
  { chunk_id := r.chunk_id, text := r.text, metadata := some r.metadata }

/-- `ChunkRecord.from_dict`. -/
def ChunkRecord.from_dict (d : RecordDict) : ChunkRecord :=
  { chunk_id := d.chunk_id, text := d.text, metadata := d.metadata.getD {} }

/-- The in-memory state of a `VectorStore`: the FAISS index rows
(`self._index`), the chunk records (`self._records`) and the id counter
(`self._next_id`).  `dim` records `self._dim`. -/
structure VectorStore where
  dim : Nat
  index : List (List ℚ)
  records : List ChunkRecord
  nextId : Nat
deriving DecidableEq, Repr

namespace VectorStore

/-- The state set up by `__init__` before `_load` runs (empty index,
no records, counter 0). -/
def emptyStore (dim : Nat) : VectorStore :=
  { dim := dim, index := [], records := [], nextId := 0 }

/-- `VectorStore.total_chunks` (`self._index.ntotal`). -/
def total_chunks (s : VectorStore) : Nat := s.index.length

/-- The record/id-assignment loop of `add_documents`
(`for text, meta in zip(chunks, metas): ...`): returns the appended
records, the returned ids, and the final value of `self._next_id`. -/
def addLoop : Nat → List (String × Meta) → List ChunkRecord × List Nat × Nat
  | nid, [] => ([], [], nid)
  | nid, (t, m) :: rest =>
    let tail := addLoop (nid + 1) rest
    (⟨nid, t, m⟩ :: tail.1, nid :: tail.2.1, tail.2.2)

/-- `VectorStore.add_documents` (`vector_store.py`, lines 94–135).
`metadatas or [{} for _ in chunks]` makes both `None` and the empty
list fall back to per-chunk empty dicts; a non-empty `metadatas` is
`zip`-truncated against `chunks`, while `self._index.add(vectors)`
always adds one row per chunk. -/
def add_documents (s : VectorStore) (embed : String → List ℚ)
    (chunks : List String) (metadatas : Option (List Meta)) :
    VectorStore × List Nat :=
  if chunks.isEmpty then (s, [])
  else
    let vectors := chunks.map embed
    let metas : List Meta :=
      match metadatas with
      | none => chunks.map (fun _ => {})
      | some [] => chunks.map (fun _ => {})
      | some ms => ms
    let res := addLoop s.nextId (chunks.zip metas)
    ({ dim := s.dim, index := s.index ++ vectors,
       records := s.records ++ res.1, nextId := res.2.2 }, res.2.1)

/-! #### Exact inner-product search (FAISS `IndexFlatIP.search`)

`IndexFlatIP` performs exhaustive exact search: the `k` rows with the
highest inner product against the query, in descending score order,
ties by lower row index.  It is embedded as sorting the scored rows by
that priority and taking `k`.  Since `search` always passes
`k = min(top_k, ntotal) ≤ ntotal`, FAISS never pads with `-1` labels
here, so every returned label is a real row index. -/

/-- Inner product of two equal-length vectors (`np.dot` row score). -/
def innerProduct (u v : List ℚ) : ℚ := (List.zipWith (· * ·) u v).sum

/-- The priority order of exact search results: higher score first,
ties by lower row index. -/
def scoreOrder (a b : Nat × ℚ) : Prop := b.2 < a.2 ∨ (a.2 = b.2 ∧ a.1 ≤ b.1)

instance : DecidableRel scoreOrder := fun a b => by
  unfold scoreOrder; exact inferInstance

instance : IsTotal (Nat × ℚ) scoreOrder where
  total a b := by
    rcases lt_trichotomy a.2 b.2 with h | h | h
    · exact Or.inr (Or.inl h)
    · rcases Nat.le_total a.1 b.1 with h' | h'
      · exact Or.inl (Or.inr ⟨h, h'⟩)
      · exact Or.inr (Or.inr ⟨h.symm, h'⟩)
    · exact Or.inl (Or.inl h)

instance : IsTrans (Nat × ℚ) scoreOrder where
  trans a b c hab hbc := by
    rcases hab with h1 | ⟨e1, l1⟩
    · rcases hbc with h2 | ⟨e2, _⟩
      · exact Or.inl (h2.trans h1)
      · exact Or.inl (e2 ▸ h1)
    · rcases hbc with h2 | ⟨e2, l2⟩
      · exact Or.inl (e1 ▸ h2)
      · exact Or.inr ⟨e1.trans e2, l1.trans l2⟩

/-- FAISS `IndexFlatIP.search` on index rows `index` with query `q`,
returning the `k` best `(row, score)` pairs in priority order. -/
def faissSearch (index : List (List ℚ)) (q : List ℚ) (k : Nat) :
    List (Nat × ℚ) :=
  (List.insertionSort scoreOrder (index.map (innerProduct q)).enum).take k

/-- One search hit: `{"text": ..., "score": ..., "metadata": ...}`. -/
structure SearchResult where
  text : String
  score : ℚ
  metadata : Meta
deriving DecidableEq, Repr

/-- The result-building loop of `search`
(`record = self._records[int(idx)]; results.append({...})`): Python
list indexing raises when `idx` is out of range, embedded as `none`. -/
def collectResults (records : List ChunkRecord) :
    List (Nat × ℚ) → Option (List SearchResult)
  | [] => some []
  | (i, sc) :: rest =>
    match records.get? i with
    | none => none
    | some r =>
      (collectResults records rest).map (fun out =>
        ⟨r.text, sc, r.metadata⟩ :: out)

/-- `VectorStore.search` (`vector_store.py`, lines 138–171):
empty result on an empty index, else the `min(top_k, ntotal)` best
rows, resolved to their records.  `none` embeds the `IndexError` a
records/index desynchronisation would raise. -/
def search (s : VectorStore) (embed : String → List ℚ)
    (query : String) (top_k : Nat) : Option (List SearchResult) :=
  if s.index.length = 0 then some []
  else
    let query_vec := embed query
    let k := min top_k s.index.length
    collectResults s.records (faissSearch s.index query_vec k)

/-! #### Persistence (`_save` / `_load`) -/

/-- The JSON document written to `records.json`:
`{"next_id": ..., "records": [...]}`. -/
structure RecordsData where
  next_id : Nat
  records : List RecordDict
deriving DecidableEq, Repr

/-- What `_save` puts on disk: the FAISS binary index
(`faiss.write_index`, lossless for `IndexFlatIP`, embedded as the row
list itself) and the records JSON. -/
def saveData (s : VectorStore) : List (List ℚ) × RecordsData :=
  (s.index, { next_id := s.nextId, records := s.records.map ChunkRecord.to_dict })

/-- The on-disk snapshot as `_load` sees it: `none` when either file is
missing; otherwise each artifact either deserializes or raises
(embedded as `Except String`). -/
abbrev Disk : Type :=
  Option (Except String (List (List ℚ)) × Except String RecordsData)

/-- `VectorStore._load` (`vector_store.py`, lines 205–234) applied to
the freshly initialised state: missing files keep the fresh state; any
exception while reading either artifact falls back to the empty state;
otherwise both artifacts are installed as-is (their lengths are NOT
compared). -/
def load (s : VectorStore) (disk : Disk) : VectorStore :=
  match disk with
  | none => s
  | some (idxRes, recRes) =>
    match idxRes, recRes with
    | Except.ok idx, Except.ok data =>
      { dim := s.dim, index := idx,
        records := data.records.map ChunkRecord.from_dict,
        nextId := data.next_id }
    | _, _ =>
      { dim := s.dim, index := [], records := [], nextId := 0 }

/-- `VectorStore.__init__` (lines 71–84): fresh empty state, then
`_load`. -/
def construct (dim : Nat) (disk : Disk) : VectorStore :=
  load (emptyStore dim) disk

/-- A sequence of `add_documents` calls applied in order (the only
mutations the store has). -/
def applyCalls (embed : String → List ℚ) (s : VectorStore)
    (calls : List (List String × Option (List Meta))) : VectorStore :=
  calls.foldl (fun st c => (add_documents st embed c.1 c.2).1) s

end VectorStore

/-! ### `PlannerAgent` (`backend/app/agents/planner_agent.py`) and
`RetrievalService` (`backend/app/services/retrieval_service.py`) -/

/-- `RetrievalService.search`: a thin pass-through to
`VectorStore.search` with the same `top_k`. -/
def RetrievalService.search (s : VectorStore) (embed : String → List ℚ)
    (query : String) (top_k : Nat) : Option (List VectorStore.SearchResult) :=
  VectorStore.search s embed query top_k

/-- `_MIN_RELEVANCE_SCORE = 0.15` (`planner_agent.py`, line 28). -/
def MIN_RELEVANCE_SCORE : ℚ := 15 / 100

/-- `_DEFAULT_TOP_K = 3`. -/
def DEFAULT_TOP_K : Nat := 3

/-- `RetrievedChunk` (`planner_agent.py`, lines 31–36). -/
structure RetrievedChunk where
  text : String
  score : ℚ
  metadata : Meta
deriving DecidableEq, Repr

/-- `PlannerResult` (`planner_agent.py`, lines 39–45); the `metadata`
dict `{"top_k": ..., "raw_count": ...}` is embedded as two fields. -/
structure PlannerResult where
  query : String
  strategy : String
  chunks : List RetrievedChunk
  meta_top_k : Nat
  meta_raw_count : Nat
deriving DecidableEq, Repr

/-- Python 3 `round(q, 4)` on the ideal (exact) value: scale by `10^4`,
round half to even (banker's rounding), scale back. -/
def pyRoundHalfEven (q : ℚ) : ℤ :=
  let f := ⌊q⌋
  let r := q - f
  if r < 1 / 2 then f
  else if 1 / 2 < r then f + 1
  else if Even f then f else f + 1

/-- `round(score, 4)` as used by `source_list`. -/
def pyRound4 (q : ℚ) : ℚ := (pyRoundHalfEven (q * 10000) : ℚ) / 10000

/-- One entry of `PlannerResult.source_list()`. -/
structure SourceRef where
  chunk_index : Option Nat
  filename : String
  document_id : String
  score : ℚ
deriving DecidableEq, Repr

/-- `PlannerResult.source_list` (`planner_agent.py`, lines 61–71):
metadata lookups with defaults, and the score rounded to 4 digits. -/
def PlannerResult.source_list (res : PlannerResult) : List SourceRef :=
  res.chunks.map (fun c =>
    { chunk_index := c.metadata.chunk_index,
      filename := c.metadata.filename.getD "unknown",
      document_id := c.metadata.document_id.getD "",
      score := pyRound4 c.score })

/-- The strategy string
`f"dense_retrieval(top_k={top_k}, threshold={_MIN_RELEVANCE_SCORE}, returned={len(chunks)})"`
(the constant `0.15` formats as `"0.15"`). -/
def strategyString (top_k returned : Nat) : String :=
  "dense_retrieval(top_k=" ++ toString top_k ++
    ", threshold=0.15, returned=" ++ toString returned ++ ")"

/-- `PlannerAgent.plan` (`planner_agent.py`, lines 88–136): retrieve
with the caller's `top_k`, keep the results whose score passes
`score >= _MIN_RELEVANCE_SCORE` in retrieved order at full precision,
and package them.  `none` embeds an exception escaping the retrieval
call. -/
def PlannerAgent.plan (s : VectorStore) (embed : String → List ℚ)
    (query : String) (top_k : Nat) : Option PlannerResult :=
  (RetrievalService.search s embed query top_k).map (fun raw =>
    let chunks := (raw.filter (fun r => MIN_RELEVANCE_SCORE ≤ r.score)).map
      (fun r => RetrievedChunk.mk r.text r.score r.metadata)
    { query := query,
      strategy := strategyString top_k chunks.length,
      chunks := chunks,
      meta_top_k := top_k,
      meta_raw_count := raw.length })

/-! ### Lemmas about the store -/

namespace VectorStore

theorem addLoop_spec (l : List (String × Meta)) :
    ∀ n : Nat,
      (addLoop n l).1.length = l.length ∧
      (addLoop n l).2.2 = n + l.length ∧
      (addLoop n l).1.map (fun r => r.chunk_id) = List.range' n l.length := by
  induction l with
  | nil => intro n; simp [addLoop]
  | cons a t ih =>
    intro n
    obtain ⟨ta, ma⟩ := a
    obtain ⟨h1, h2, h3⟩ := ih (n + 1)
    refine ⟨by simp [addLoop, h1], by simp [addLoop, h2]; omega, ?_⟩
    simp [addLoop, h3, List.range'_succ]

theorem to_from_dict (r : ChunkRecord) :
    ChunkRecord.from_dict (ChunkRecord.to_dict r) = r := rfl

/-- The id/position invariant is preserved by any `add_documents` call. -/
theorem add_documents_idAligned (s : VectorStore) (embed : String → List ℚ)
    (chunks : List String) (metadatas : Option (List Meta))
    (h1 : s.nextId = s.records.length)
    (h2 : s.records.map (fun r => r.chunk_id) = List.range s.records.length) :
    (add_documents s embed chunks metadatas).1.nextId =
        (add_documents s embed chunks metadatas).1.records.length ∧
      (add_documents s embed chunks metadatas).1.records.map (fun r => r.chunk_id) =
        List.range (add_documents s embed chunks metadatas).1.records.length := by
  by_cases hc : chunks.isEmpty
  · simp [add_documents, hc, h1, h2]
  · obtain ⟨hl, hn, hm⟩ :=
      addLoop_spec (chunks.zip (match metadatas with
        | none => chunks.map (fun _ => {})
        | some [] => chunks.map (fun _ => {})
        | some ms => ms)) s.nextId
    constructor
    · simp only [add_documents, hc, Bool.false_eq_true, if_false, List.length_append]
      rw [hn, hl, h1]
    · simp only [add_documents, hc, Bool.false_eq_true, if_false, List.length_append,
        List.map_append]
      rw [hm, hl, h2, h1, List.range_eq_range', List.range_eq_range',
        Nat.add_comm s.records.length, ← List.range'_append_1]
      norm_num

theorem applyCalls_idAligned (embed : String → List ℚ)
    (calls : List (List String × Option (List Meta))) :
    ∀ s : VectorStore,
      s.nextId = s.records.length →
      s.records.map (fun r => r.chunk_id) = List.range s.records.length →
      (applyCalls embed s calls).nextId = (applyCalls embed s calls).records.length ∧
        (applyCalls embed s calls).records.map (fun r => r.chunk_id) =
          List.range (applyCalls embed s calls).records.length := by
  induction calls with
  | nil => intro s h1 h2; exact ⟨h1, h2⟩
  | cons c t ih =>
    intro s h1 h2
    obtain ⟨g1, g2⟩ := add_documents_idAligned s embed c.1 c.2 h1 h2
    exact ih _ g1 g2

end VectorStore

/-! ### Claim C1 -/

/-- C1, counterexample: from a consistent (here: empty) prior state,
`add_documents` with a metadatas list shorter than the chunk list
(`chunks = ["a", "b"]`, `metadatas = [{}]`) appends only one record
(the `zip` truncates) but adds both vector rows, so afterwards the
record count (1) differs from `total_chunks` (2), contradicting the
claimed invariant for the "shorter list" case. -/
theorem C1_counterexample :
    (VectorStore.emptyStore 1).records.length = (VectorStore.emptyStore 1).total_chunks ∧
      (VectorStore.add_documents (VectorStore.emptyStore 1) (fun _ => [1]) ["a", "b"]
          (some [{}])).1.records.length = 1 ∧
      (VectorStore.add_documents (VectorStore.emptyStore 1) (fun _ => [1]) ["a", "b"]
          (some [{}])).1.total_chunks = 2 :=
  ⟨rfl, rfl, rfl⟩

/-- C1 (amended): for every prior store state whose record count equals
its row count, and every chunk list, `add_documents` preserves
record-count = row-count whenever `metadatas` is absent (`None`), the
empty list, or a list at least as long as `chunks`; a shorter non-empty
`metadatas` list is silently `zip`-truncated and breaks the
alignment. -/
theorem C1_amended (s : VectorStore) (embed : String → List ℚ)
    (chunks : List String) (metadatas : Option (List Meta))
    (hcons : s.records.length = s.total_chunks)
    (hmeta : metadatas = none ∨ metadatas = some [] ∨
      ∃ ms, metadatas = some ms ∧ chunks.length ≤ ms.length) :
    (VectorStore.add_documents s embed chunks metadatas).1.records.length =
      (VectorStore.add_documents s embed chunks metadatas).1.total_chunks := by
  by_cases hc : chunks.isEmpty
  · simpa [VectorStore.add_documents, hc, VectorStore.total_chunks] using hcons
  · have hlen : ∀ metas : List Meta,
        (VectorStore.add_documents s embed chunks metadatas).1 =
          { dim := s.dim, index := s.index ++ chunks.map embed,
            records := s.records ++ (VectorStore.addLoop s.nextId (chunks.zip metas)).1,
            nextId := (VectorStore.addLoop s.nextId (chunks.zip metas)).2.2 } →
        chunks.length ≤ metas.length →
        (VectorStore.add_documents s embed chunks metadatas).1.records.length =
          (VectorStore.add_documents s embed chunks metadatas).1.total_chunks := by
      intro metas heq hle
      rw [heq]
      simp only [VectorStore.total_chunks, List.length_append,
        (VectorStore.addLoop_spec _ _).1, List.length_zip, List.length_map]
      rw [VectorStore.total_chunks] at hcons
      omega
    rcases hmeta with rfl | rfl | ⟨ms, rfl, hle⟩
    · exact hlen (chunks.map fun _ => {}) (by simp [VectorStore.add_documents, hc]) (by simp)
    · exact hlen (chunks.map fun _ => {}) (by simp [VectorStore.add_documents, hc]) (by simp)
    · match ms, hle with
      | [], hle =>
        have : chunks = [] := by
          cases chunks with
          | nil => rfl
          | cons a t => simp at hle
        simp [this] at hc
      | m :: mt, hle =>
        exact hlen (m :: mt) (by simp [VectorStore.add_documents, hc]) hle

/-- C1 amended, witness at a concrete input. -/
theorem C1_amended_witness :
    (VectorStore.add_documents (VectorStore.emptyStore 1) (fun _ => [1]) ["a", "b"]
        none).1.records.length =
      (VectorStore.add_documents (VectorStore.emptyStore 1) (fun _ => [1]) ["a", "b"]
          none).1.total_chunks :=
  C1_amended (VectorStore.emptyStore 1) (fun _ => [1]) ["a", "b"] none rfl (Or.inl rfl)

/-! ### Claim C9 -/

/-- C9: starting from an empty store and mutating only through
`add_documents` (with arbitrary `metadatas` arguments), every stored
record's `chunk_id` equals its position in the record sequence: the map
of `chunk_id` over the records is exactly `range (number of records)`,
because `self._next_id` advances in lockstep with record appends. -/
theorem C9_chunk_id_is_position (dim : Nat) (embed : String → List ℚ)
    (calls : List (List String × Option (List Meta))) :
    (VectorStore.applyCalls embed (VectorStore.emptyStore dim) calls).records.map
        (fun r => r.chunk_id) =
      List.range
        (VectorStore.applyCalls embed (VectorStore.emptyStore dim) calls).records.length :=
  (VectorStore.applyCalls_idAligned embed calls (VectorStore.emptyStore dim) rfl rfl).2

/-! ### Claim C3 -/

/-- C3: for every store state reachable by `add_documents` calls from a
fresh empty store, saving it (`_save`) and loading the saved snapshot
into a freshly constructed store (`__init__`/`_load`) yields identical
`total_chunks`, identical record texts and metadata in the same order
(indeed identical records and `next_id`), and identical `search`
results for every query and every `k`. -/
theorem C3_save_load_roundtrip (dim : Nat) (embed : String → List ℚ)
    (calls : List (List String × Option (List Meta))) :
    (VectorStore.construct dim
          (some (Except.ok
              (VectorStore.saveData (VectorStore.applyCalls embed (VectorStore.emptyStore dim) calls)).1,
            Except.ok
              (VectorStore.saveData (VectorStore.applyCalls embed (VectorStore.emptyStore dim) calls)).2))) =
        { dim := dim,
          index := (VectorStore.applyCalls embed (VectorStore.emptyStore dim) calls).index,
          records := (VectorStore.applyCalls embed (VectorStore.emptyStore dim) calls).records,
          nextId := (VectorStore.applyCalls embed (VectorStore.emptyStore dim) calls).nextId } ∧
      (VectorStore.construct dim
          (some (Except.ok
              (VectorStore.saveData (VectorStore.applyCalls embed (VectorStore.emptyStore dim) calls)).1,
            Except.ok
              (VectorStore.saveData (VectorStore.applyCalls embed (VectorStore.emptyStore dim) calls)).2))).total_chunks =
        (VectorStore.applyCalls embed (VectorStore.emptyStore dim) calls).total_chunks ∧
      ∀ (query : String) (k : Nat),
        VectorStore.search
            (VectorStore.construct dim
              (some (Except.ok
                  (VectorStore.saveData (VectorStore.applyCalls embed (VectorStore.emptyStore dim) calls)).1,
                Except.ok
                  (VectorStore.saveData (VectorStore.applyCalls embed (VectorStore.emptyStore dim) calls)).2)))
            embed query k =
          VectorStore.search (VectorStore.applyCalls embed (VectorStore.emptyStore dim) calls)
            embed query k := by
  have hconstruct :
      VectorStore.construct dim
          (some (Except.ok
              (VectorStore.saveData (VectorStore.applyCalls embed (VectorStore.emptyStore dim) calls)).1,
            Except.ok
              (VectorStore.saveData (VectorStore.applyCalls embed (VectorStore.emptyStore dim) calls)).2)) =
        { dim := dim,
          index := (VectorStore.applyCalls embed (VectorStore.emptyStore dim) calls).index,
          records := (VectorStore.applyCalls embed (VectorStore.emptyStore dim) calls).records,
          nextId := (VectorStore.applyCalls embed (VectorStore.emptyStore dim) calls).nextId } := by
    simp [VectorStore.construct, VectorStore.load, VectorStore.saveData,
      VectorStore.emptyStore, List.map_map, Function.comp_def, VectorStore.to_from_dict]
  refine ⟨hconstruct, ?_, ?_⟩
  · rw [hconstruct]; rfl
  · intro query k
    rw [hconstruct]
    rfl

/-! ### Claim C2 -/

/-- C2, counterexample: a snapshot whose two artifacts both deserialize
but whose vector count (2) and record count (1) disagree does NOT make
construction fall back to the empty state: both parts are installed
as-is, so `total_chunks` is 2, not 0. -/
theorem C2_counterexample :
    (VectorStore.construct 1 (some (Except.ok [[(1 : ℚ)], [(2 : ℚ)]],
          Except.ok ({ next_id := 5, records := [{ chunk_id := 0, text := "t", metadata := some {} }] } : VectorStore.RecordsData)))).total_chunks = 2 ∧
      (VectorStore.construct 1 (some (Except.ok [[(1 : ℚ)], [(2 : ℚ)]],
          Except.ok ({ next_id := 5, records := [{ chunk_id := 0, text := "t", metadata := some {} }] } : VectorStore.RecordsData)))).records.length = 1 ∧
      (VectorStore.construct 1 (some (Except.ok [[(1 : ℚ)], [(2 : ℚ)]],
          Except.ok ({ next_id := 5, records := [{ chunk_id := 0, text := "t", metadata := some {} }] } : VectorStore.RecordsData)))).total_chunks ≠ 0 :=
  ⟨rfl, rfl, by decide⟩

/-- C2 (amended): if a persisted snapshot exists but either artifact
fails to parse/deserialize (raises), constructing a `VectorStore` falls
back to the empty state (`total_chunks = 0`, no records, `next_id = 0`)
rather than crashing; but a vector-count/record-count disagreement is
not detected — when both artifacts deserialize they are installed
exactly as read, with no length comparison. -/
theorem C2_amended (dim : Nat) (a : Except String (List (List ℚ)))
    (b : Except String VectorStore.RecordsData) :
    (a.isOk = false ∨ b.isOk = false →
        VectorStore.construct dim (some (a, b)) = VectorStore.emptyStore dim) ∧
      ∀ (idx : List (List ℚ)) (data : VectorStore.RecordsData),
        a = Except.ok idx → b = Except.ok data →
        VectorStore.construct dim (some (a, b)) =
          { dim := dim, index := idx,
            records := data.records.map ChunkRecord.from_dict,
            nextId := data.next_id } := by
  constructor
  · intro h
    cases a with
    | error e => cases b <;> rfl
    | ok idx =>
      cases b with
      | error e => rfl
      | ok data => simp [Except.isOk, Except.toBool] at h
  · intro idx data ha hb
    subst ha; subst hb
    rfl

/-- C2 amended, witness at a concrete input: a records file that fails
to parse yields the empty fallback state. -/
theorem C2_amended_witness :
    VectorStore.construct 1 (some (Except.ok [[(1 : ℚ)]],
        Except.error "Expecting value: line 1 column 1 (char 0)")) =
      VectorStore.emptyStore 1 :=
  (C2_amended 1 (Except.ok [[(1 : ℚ)]])
      (Except.error "Expecting value: line 1 column 1 (char 0)")).1 (Or.inr rfl)

/-! ### Lemmas about search -/

namespace VectorStore

theorem collectResults_spec (records : List ChunkRecord) :
    ∀ l : List (Nat × ℚ), (∀ p ∈ l, p.1 < records.length) →
      ∃ out, collectResults records l = some out ∧
        out.length = l.length ∧
        out.map (fun r => r.score) = l.map (fun p => p.2) := by
  intro l
  induction l with
  | nil => intro _; exact ⟨[], rfl, rfl, rfl⟩
  | cons p t ih =>
    intro h
    obtain ⟨i, sc⟩ := p
    have hi : i < records.length := h (i, sc) (List.mem_cons_self _ _)
    have hr : records[i]? = some (records.get ⟨i, hi⟩) := by
      rw [← List.get?_eq_getElem?]
      exact List.get?_eq_get hi
    obtain ⟨out, h1, h2, h3⟩ := ih (fun q hq => h q (List.mem_cons_of_mem _ hq))
    refine ⟨⟨(records.get ⟨i, hi⟩).text, sc, (records.get ⟨i, hi⟩).metadata⟩ :: out,
      ?_, by simp [h2], by simp [h3]⟩
    simp [collectResults, hr, h1]

theorem scoreOrder_ge {a b : Nat × ℚ} (h : scoreOrder a b) : a.2 ≥ b.2 := by
  rcases h with h | ⟨h, _⟩
  · exact le_of_lt h
  · exact ge_of_eq h

theorem faissSearch_spec (index : List (List ℚ)) (q : List ℚ) (k : Nat) :
    (faissSearch index q k).length = min k index.length ∧
      (∀ p ∈ faissSearch index q k, p.1 < index.length) ∧
      ((faissSearch index q k).map (fun p => p.2)).Sorted (· ≥ ·) := by
  refine ⟨?_, ?_, ?_⟩
  · rw [faissSearch, List.length_take, List.length_insertionSort, List.enum_length,
      List.length_map]
  · intro p hp
    have hmem : p ∈ List.insertionSort scoreOrder ((index.map (innerProduct q)).enum) :=
      List.mem_of_mem_take hp
    have henum : p ∈ (index.map (innerProduct q)).enum :=
      (List.perm_insertionSort scoreOrder _).mem_iff.mp hmem
    have hget : (index.map (innerProduct q)).get? p.1 = some p.2 :=
      List.mem_enum_iff_get?.mp henum
    have := List.get?_eq_some.mp hget
    obtain ⟨hlt, _⟩ := this
    simpa using hlt
  · have hs : (List.insertionSort scoreOrder ((index.map (innerProduct q)).enum)).Sorted
        scoreOrder := List.sorted_insertionSort scoreOrder _
    have ht : (faissSearch index q k).Sorted scoreOrder :=
      hs.sublist (List.take_sublist _ _)
    exact ht.map (fun p => p.2) (fun a b h => scoreOrder_ge h)

/-- Full behaviour of `search` on a consistent store: no exception,
`min k ntotal` results, scores in descending order. -/
theorem search_spec (s : VectorStore) (embed : String → List ℚ)
    (query : String) (k : Nat) (hcons : s.records.length = s.index.length) :
    ∃ out, search s embed query k = some out ∧
      out.length = min k s.index.length ∧
      (out.map (fun r => r.score)).Sorted (· ≥ ·) := by
  by_cases h0 : s.index.length = 0
  · refine ⟨[], by simp [search, h0], by simp [h0], by simp⟩
  · obtain ⟨hlen, hbound, hsorted⟩ := faissSearch_spec s.index (embed query)
      (min k s.index.length)
    obtain ⟨out, h1, h2, h3⟩ := collectResults_spec s.records _
      (fun p hp => by rw [hcons]; exact hbound p hp)
    refine ⟨out, ?_, ?_, ?_⟩
    · simpa [search, h0] using h1
    · rw [h2, hlen]; omega
    · rw [h3]; exact hsorted

end VectorStore

/-! ### Claim C4 -/

/-- C4: on every consistent index (record count = row count) and every
requested `k`, `search` raises no error and returns exactly
`min k total_chunks` results ordered by descending score; in
particular an empty list when the index is empty, and exactly `N`
results (no padding) when `k > N`. -/
theorem C4_search_bounds (s : VectorStore) (embed : String → List ℚ)
    (query : String) (k : Nat) (hcons : s.records.length = s.index.length) :
    ∃ out, VectorStore.search s embed query k = some out ∧
      out.length = min k s.total_chunks ∧
      (out.map (fun r => r.score)).Sorted (· ≥ ·) ∧
      (s.total_chunks = 0 → out = []) ∧
      (s.total_chunks < k → out.length = s.total_chunks) := by
  obtain ⟨out, h1, h2, h3⟩ := VectorStore.search_spec s embed query k hcons
  refine ⟨out, h1, h2, h3, ?_, ?_⟩
  · intro h0
    rw [VectorStore.total_chunks] at h0
    rw [h0] at h2
    simp at h2
    exact h2
  · intro hk
    rw [VectorStore.total_chunks] at hk ⊢
    omega

/-- C4, witness at a concrete two-record store with `k = 5 > N = 2`. -/
theorem C4_search_bounds_witness :
    ∃ out, VectorStore.search ⟨1, [[1], [2]], [⟨0, "a", {}⟩, ⟨1, "b", {}⟩], 2⟩
        (fun _ => [1]) "q" 5 = some out ∧
      out.length = min 5 (VectorStore.total_chunks ⟨1, [[1], [2]], [⟨0, "a", {}⟩, ⟨1, "b", {}⟩], 2⟩) ∧
      (out.map (fun r => r.score)).Sorted (· ≥ ·) ∧
      (VectorStore.total_chunks ⟨1, [[1], [2]], [⟨0, "a", {}⟩, ⟨1, "b", {}⟩], 2⟩ = 0 → out = []) ∧
      (VectorStore.total_chunks ⟨1, [[1], [2]], [⟨0, "a", {}⟩, ⟨1, "b", {}⟩], 2⟩ < 5 →
        out.length = VectorStore.total_chunks ⟨1, [[1], [2]], [⟨0, "a", {}⟩, ⟨1, "b", {}⟩], 2⟩) :=
  C4_search_bounds ⟨1, [[1], [2]], [⟨0, "a", {}⟩, ⟨1, "b", {}⟩], 2⟩ (fun _ => [1]) "q" 5 rfl

/-! ### The planner on a consistent store (shared analysis) -/

/-- Full behaviour of `PlannerAgent.plan` on a consistent store. -/
theorem plan_spec (s : VectorStore) (embed : String → List ℚ)
    (query : String) (k : Nat) (hcons : s.records.length = s.index.length) :
    ∃ raw res,
      RetrievalService.search s embed query k = some raw ∧
      PlannerAgent.plan s embed query k = some res ∧
      raw.length = min k s.total_chunks ∧
      res.chunks = (raw.filter (fun r => MIN_RELEVANCE_SCORE ≤ r.score)).map
        (fun r => RetrievedChunk.mk r.text r.score r.metadata) ∧
      res.strategy = strategyString k res.chunks.length ∧
      res.meta_top_k = k ∧ res.meta_raw_count = raw.length ∧
      ((∀ r ∈ raw, r.score < MIN_RELEVANCE_SCORE) →
        res.chunks = [] ∧ res.strategy = strategyString k 0) := by
  obtain ⟨raw, h1, h2, _⟩ := VectorStore.search_spec s embed query k hcons
  refine ⟨raw,
    { query := query,
      strategy := strategyString k ((raw.filter (fun r => MIN_RELEVANCE_SCORE ≤ r.score)).map
        (fun r => RetrievedChunk.mk r.text r.score r.metadata)).length,
      chunks := (raw.filter (fun r => MIN_RELEVANCE_SCORE ≤ r.score)).map
        (fun r => RetrievedChunk.mk r.text r.score r.metadata),
      meta_top_k := k,
      meta_raw_count := raw.length }, h1, ?_, h2, rfl, rfl, rfl, rfl, ?_⟩
  · simp [PlannerAgent.plan, RetrievalService.search, h1]
  · intro hall
    have hnil : raw.filter (fun r => MIN_RELEVANCE_SCORE ≤ r.score) = [] := by
      rw [List.filter_eq_nil_iff]
      intro a ha
      simpa using not_le.mpr (hall a ha)
    simp [hnil]

/-! ### Claim C7 -/

/-- C7: on every consistent store, `plan` returns (never errors) the
retrieved results whose score is not strictly below the relevance
threshold, in retrieved order; `top_k` is passed unchanged to the
index (the raw list is the index's own `min(top_k, N)`-result answer);
the strategy string reports the kept count; and when every retrieved
score is below the threshold (or the index is empty), the chunk list
is empty and the strategy reports `returned=0`. -/
theorem C7_plan_threshold (s : VectorStore) (embed : String → List ℚ)
    (query : String) (k : Nat) (hcons : s.records.length = s.index.length) :
    ∃ raw res,
      RetrievalService.search s embed query k = some raw ∧
      PlannerAgent.plan s embed query k = some res ∧
      raw.length = min k s.total_chunks ∧
      res.chunks = (raw.filter (fun r => MIN_RELEVANCE_SCORE ≤ r.score)).map
        (fun r => RetrievedChunk.mk r.text r.score r.metadata) ∧
      res.strategy = strategyString k res.chunks.length ∧
      res.meta_top_k = k ∧ res.meta_raw_count = raw.length ∧
      ((∀ r ∈ raw, r.score < MIN_RELEVANCE_SCORE) →
        res.chunks = [] ∧ res.strategy = strategyString k 0) :=
  plan_spec s embed query k hcons

/-- C7, witness at a concrete store whose single score (1) passes the
threshold. -/
theorem C7_plan_threshold_witness :
    ∃ raw res,
      RetrievalService.search ⟨1, [[1]], [⟨0, "a", {}⟩], 1⟩ (fun _ => [1]) "q" 3 = some raw ∧
      PlannerAgent.plan ⟨1, [[1]], [⟨0, "a", {}⟩], 1⟩ (fun _ => [1]) "q" 3 = some res ∧
      raw.length = min 3 (VectorStore.total_chunks ⟨1, [[1]], [⟨0, "a", {}⟩], 1⟩) ∧
      res.chunks = (raw.filter (fun r => MIN_RELEVANCE_SCORE ≤ r.score)).map
        (fun r => RetrievedChunk.mk r.text r.score r.metadata) ∧
      res.strategy = strategyString 3 res.chunks.length ∧
      res.meta_top_k = 3 ∧ res.meta_raw_count = raw.length ∧
      ((∀ r ∈ raw, r.score < MIN_RELEVANCE_SCORE) →
        res.chunks = [] ∧ res.strategy = strategyString 3 0) :=
  C7_plan_threshold ⟨1, [[1]], [⟨0, "a", {}⟩], 1⟩ (fun _ => [1]) "q" 3 rfl

/-! ### Claim C8 -/

/-- C8, counterexample: a kept `RetrievedChunk` records the
full-precision score `1/3 = 0.333...`, not the 4-digit-rounded
`0.3333` (the rounding happens only in `source_list`), so "the
RetrievedChunk's score is recorded rounded to 4 decimal digits" fails
as stated. -/
theorem C8_counterexample :
    (PlannerAgent.plan ⟨1, [[1]], [⟨0, "doc", {}⟩], 1⟩
          (fun t => if t = "q" then [1 / 3] else [1]) "q" 3).map
        (fun res => res.chunks.map (fun c => c.score)) =
      some [1 / 3] ∧
    pyRound4 (1 / 3) = 3333 / 10000 ∧
    ((1 : ℚ) / 3) ≠ 3333 / 10000 := by
  refine ⟨?_, ?_, by norm_num⟩
  · simp [PlannerAgent.plan, RetrievalService.search, VectorStore.search,
      VectorStore.faissSearch, VectorStore.innerProduct, VectorStore.collectResults,
      List.insertionSort, MIN_RELEVANCE_SCORE]
    norm_num
  · have hf : ⌊((3 : ℚ))⁻¹ * 10000⌋ = 3333 := by norm_num
    have hfr : Int.fract (((3 : ℚ))⁻¹ * 10000) = 1 / 3 := by
      rw [Int.fract, hf]
      norm_num
    simp [pyRound4, pyRoundHalfEven, hf, hfr]
    norm_num

/-- C8 (amended): `plan` stores each kept chunk's score at full
precision in `RetrievedChunk.score` (the kept scores are exactly the
retrieved scores that pass the threshold, compared at full precision);
the 4-decimal-digit rounding is applied only in
`PlannerResult.source_list`, the external-consumption view. -/
theorem C8_amended (s : VectorStore) (embed : String → List ℚ)
    (query : String) (k : Nat) (hcons : s.records.length = s.index.length) :
    ∃ raw res,
      RetrievalService.search s embed query k = some raw ∧
      PlannerAgent.plan s embed query k = some res ∧
      res.chunks.map (fun c => c.score) =
        (raw.filter (fun r => MIN_RELEVANCE_SCORE ≤ r.score)).map (fun r => r.score) ∧
      res.source_list.map (fun e => e.score) =
        res.chunks.map (fun c => pyRound4 c.score) := by
  obtain ⟨raw, res, h1, h2, _, hchunks, _⟩ :=
    plan_spec s embed query k hcons
  refine ⟨raw, res, h1, h2, ?_, ?_⟩
  · rw [hchunks, List.map_map]; rfl
  · rw [PlannerResult.source_list, List.map_map]; rfl

/-- C8 amended, witness at a concrete input. -/
theorem C8_amended_witness :
    ∃ raw res,
      RetrievalService.search ⟨1, [[1]], [⟨0, "doc", {}⟩], 1⟩
          (fun t => if t = "q" then [51234567 / 100000000] else [1]) "q" 3 = some raw ∧
      PlannerAgent.plan ⟨1, [[1]], [⟨0, "doc", {}⟩], 1⟩
          (fun t => if t = "q" then [51234567 / 100000000] else [1]) "q" 3 = some res ∧
      res.chunks.map (fun c => c.score) =
        (raw.filter (fun r => MIN_RELEVANCE_SCORE ≤ r.score)).map (fun r => r.score) ∧
      res.source_list.map (fun e => e.score) =
        res.chunks.map (fun c => pyRound4 c.score) :=
  C8_amended ⟨1, [[1]], [⟨0, "doc", {}⟩], 1⟩
    (fun t => if t = "q" then [51234567 / 100000000] else [1]) "q" 3 rfl

/-! ### Lemmas about the Python string primitives -/

theorem pyLStrip_length_le (l : List Char) : (pyLStrip l).length ≤ l.length :=
  (List.dropWhile_sublist _).length_le

theorem pyRStrip_length_le (l : List Char) : (pyRStrip l).length ≤ l.length := by
  rw [pyRStrip, List.length_reverse]
  calc (l.reverse.dropWhile pyIsSpace).length ≤ l.reverse.length :=
        (List.dropWhile_sublist _).length_le
    _ = l.length := List.length_reverse l

theorem pyStrip_length_le (l : List Char) : (pyStrip l).length ≤ l.length :=
  le_trans (pyRStrip_length_le _) (pyLStrip_length_le _)

theorem dropWhile_dropWhile (p : Char → Bool) (l : List Char) :
    List.dropWhile p (List.dropWhile p l) = List.dropWhile p l := by
  induction l with
  | nil => rfl
  | cons a t ih =>
    by_cases h : p a <;> simp [List.dropWhile_cons, h, ih]

theorem pyLStrip_idem (l : List Char) : pyLStrip (pyLStrip l) = pyLStrip l :=
  dropWhile_dropWhile pyIsSpace l

theorem pyRStrip_idem (l : List Char) : pyRStrip (pyRStrip l) = pyRStrip l := by
  simp [pyRStrip, dropWhile_dropWhile]

theorem pyLStrip_head {l : List Char} (h : pyLStrip l = l) (hne : l ≠ []) :
    ∃ c t, l = c :: t ∧ pyIsSpace c = false := by
  cases l with
  | nil => exact absurd rfl hne
  | cons a t =>
    by_cases hp : pyIsSpace a
    · exfalso
      rw [pyLStrip, List.dropWhile_cons, if_pos hp] at h
      have := (List.dropWhile_sublist (l := t) pyIsSpace).length_le
      rw [h] at this
      simp at this
    · exact ⟨a, t, rfl, by simpa using hp⟩

theorem dropWhile_isSuf (p : Char → Bool) (l : List Char) : l.dropWhile p <:+ l := by
  induction l with
  | nil => exact List.suffix_refl _
  | cons a t ih =>
    by_cases h : p a
    · rw [List.dropWhile_cons, if_pos h]
      exact ih.trans (List.suffix_cons a t)
    · rw [List.dropWhile_cons, if_neg h]

theorem pyRStrip_isPre (l : List Char) : pyRStrip l <+: l := by
  rw [pyRStrip]
  have h2 := List.reverse_prefix.mpr (dropWhile_isSuf pyIsSpace l.reverse)
  simpa using h2

theorem stripped_lstrip {l : List Char} (h : pyStrip l = l) : pyLStrip l = l := by
  have h1 : (pyLStrip l).length ≤ l.length := pyLStrip_length_le l
  have h2 : l.length ≤ (pyLStrip l).length := by
    conv_lhs => rw [← h]
    exact pyRStrip_length_le _
  exact (List.dropWhile_sublist _).eq_of_length (le_antisymm h1 h2)

theorem stripped_rstrip {l : List Char} (h : pyStrip l = l) : pyRStrip l = l := by
  have := stripped_lstrip h
  rwa [pyStrip, this] at h

theorem stripped_endsNonWS {l : List Char} (h : pyStrip l = l) (hne : l ≠ []) :
    endsNonWS l := by
  have hr : pyRStrip l = l := stripped_rstrip h
  obtain ⟨c, t, hm⟩ : ∃ c t, l.reverse = c :: t := by
    cases hrev : l.reverse with
    | nil =>
      exact absurd (by simpa using congrArg List.reverse hrev) hne
    | cons c t => exact ⟨c, t, rfl⟩
  refine ⟨t.reverse, c, by simpa using congrArg List.reverse hm, ?_⟩
  by_contra hp
  have hp' : pyIsSpace c = true := by simpa using hp
  have hstep : pyRStrip l = (List.dropWhile pyIsSpace t).reverse := by
    rw [pyRStrip, hm, List.dropWhile_cons, if_pos hp']
  rw [hr] at hstep
  have hlen : l.length ≤ t.length := by
    calc l.length = (List.dropWhile pyIsSpace t).reverse.length := by rw [← hstep]
      _ = (List.dropWhile pyIsSpace t).length := by simp
      _ ≤ t.length := (List.dropWhile_sublist _).length_le
  have hlen2 : l.length = t.length + 1 := by
    have := congrArg List.length hm
    simpa using this
  omega

theorem endsNonWS_lstrip_ne {l : List Char} (h : endsNonWS l) : pyLStrip l ≠ [] := by
  obtain ⟨y, c, rfl, hc⟩ := h
  rw [pyLStrip, List.dropWhile_append]
  by_cases hy : (y.dropWhile pyIsSpace).isEmpty
  · simp [hy, List.dropWhile_cons, hc]
  · simp [hy]

theorem pyLStrip_append {a : List Char} (b : List Char) (h : pyLStrip a ≠ []) :
    pyLStrip (a ++ b) = pyLStrip a ++ b := by
  rw [pyLStrip, List.dropWhile_append]
  have : (a.dropWhile pyIsSpace).isEmpty = false := by
    rw [List.isEmpty_eq_false]
    exact h
  simp [this]
  rfl

theorem pyRStrip_concat {c : Char} (y : List Char) (h : pyIsSpace c = false) :
    pyRStrip (y ++ [c]) = y ++ [c] := by
  rw [pyRStrip, List.reverse_append]
  simp only [List.reverse_cons, List.reverse_nil, List.nil_append, List.singleton_append,
    List.dropWhile_cons, h]
  simp

theorem pyRStrip_endsNonWS {l : List Char} (h : endsNonWS l) : pyRStrip l = l := by
  obtain ⟨y, c, rfl, hc⟩ := h
  exact pyRStrip_concat y hc

/-- The central glue fact: stripping `x + "\n\n" + para` when `x` has a
non-whitespace character and `para` is a stripped non-empty paragraph
just left-strips `x`. -/
theorem pyStrip_glue {x para : List Char} (hx : pyLStrip x ≠ [])
    (hps : pyStrip para = para) (hpne : para ≠ []) :
    pyStrip (x ++ DocumentService.nl2 ++ para) =
      pyLStrip x ++ DocumentService.nl2 ++ para := by
  obtain ⟨y, c, hyc, hc⟩ := stripped_endsNonWS hps hpne
  have h1 : pyLStrip (x ++ DocumentService.nl2 ++ para) =
      pyLStrip x ++ DocumentService.nl2 ++ para := by
    rw [List.append_assoc, pyLStrip_append _ hx, List.append_assoc]
  rw [pyStrip, h1]
  have h2 : pyLStrip x ++ DocumentService.nl2 ++ para =
      (pyLStrip x ++ DocumentService.nl2 ++ y) ++ [c] := by
    rw [hyc]
    simp [List.append_assoc]
  rw [h2, pyRStrip_concat _ hc, ← h2]

/-- Stripping `"\n\n" + para` for a stripped paragraph gives back `para`. -/
theorem pyStrip_nl2 {para : List Char} (hps : pyStrip para = para) :
    pyStrip (DocumentService.nl2 ++ para) = para := by
  have h1 : pyLStrip (DocumentService.nl2 ++ para) = para := by
    rw [DocumentService.nl2]
    show pyLStrip ('\n' :: '\n' :: para) = para
    rw [pyLStrip, List.dropWhile_cons, if_pos (by decide), List.dropWhile_cons,
      if_pos (by decide)]
    exact stripped_lstrip hps
  rw [pyStrip, h1]
  exact stripped_rstrip hps

theorem pyStrip_idem (l : List Char) : pyStrip (pyStrip l) = pyStrip l := by
  rw [pyStrip, pyStrip]
  have hm : pyLStrip (pyLStrip l) = pyLStrip l := pyLStrip_idem l
  by_cases hmn : pyRStrip (pyLStrip l) = []
  · rw [hmn]
    rfl
  · have hlp : pyLStrip (pyRStrip (pyLStrip l)) = pyRStrip (pyLStrip l) := by
      have hmne : pyLStrip l ≠ [] := by
        intro h
        rw [h] at hmn
        exact hmn rfl
      obtain ⟨c, t, hct, hc⟩ := pyLStrip_head hm hmne
      obtain ⟨u, hu⟩ := pyRStrip_isPre (pyLStrip l)
      cases hrm : pyRStrip (pyLStrip l) with
      | nil => exact absurd hrm hmn
      | cons d t' =>
        have heq : (d :: t') ++ u = c :: t := by
          rw [← hrm, hu, hct]
        have hdc : d = c := by
          have := congrArg (fun x => x.head?) heq
          simpa using this
        rw [pyLStrip, List.dropWhile_cons]
        simp [hdc, hc]
    rw [hlp, pyRStrip_idem]

/-! ### Lemmas about the chunker -/

namespace DocumentService

theorem paragraphsOf_spec (text : List Char) :
    ∀ p ∈ paragraphsOf text, pyStrip p = p ∧ p ≠ [] := by
  intro p hp
  rw [paragraphsOf, List.mem_filter] at hp
  obtain ⟨hmem, hne⟩ := hp
  obtain ⟨q, _, rfl⟩ := List.mem_map.mp hmem
  refine ⟨pyStrip_idem q, ?_⟩
  simpa [List.isEmpty_iff] using hne

theorem takeNeg_endsNonWS {overlap : Nat} {l : List Char} (hov : 0 < overlap)
    (hs : pyStrip l = l) (hne : l ≠ []) : endsNonWS (pyTakeNeg overlap l) := by
  obtain ⟨y, c, rfl, hc⟩ := stripped_endsNonWS hs hne
  rw [pyTakeNeg, if_neg (by omega : ¬ overlap = 0)]
  rw [List.drop_append_eq_append_drop]
  have h2 : (y ++ [c]).length - overlap - y.length = 0 := by
    simp only [List.length_append, List.length_singleton]
    omega
  rw [h2, List.drop_zero]
  exact ⟨y.drop ((y ++ [c]).length - overlap), c, rfl, hc⟩

theorem chain'_tagTrue (overlap : Nat) (l : List (List Char)) :
    (l.map (fun c => (c, true))).Chain' (adjRel overlap) := by
  induction l with
  | nil => exact List.chain'_nil
  | cons a t ih =>
    cases t with
    | nil => exact List.chain'_singleton _
    | cons b t2 =>
      refine List.chain'_cons.mpr ⟨?_, ih⟩
      intro h
      simp at h

/-- What the flush `if current: chunks.append(current)` guarantees. -/
theorem flush_spec (overlap : Nat) {C : List (List Char × Bool)} {cur : List Char}
    (hinv : StInv overlap (C, cur)) :
    (∀ c ∈ flushCurrent C cur, c.2 = false → pyStrip c.1 = c.1 ∧ c.1 ≠ []) ∧
      (flushCurrent C cur).Chain' (adjRel overlap) ∧
      (cur ≠ [] → (flushCurrent C cur).getLast? = some (cur, false)) ∧
      (cur = [] → flushCurrent C cur = C) := by
  obtain ⟨hreg, hcur, hadj, hlink, hemp⟩ := hinv
  by_cases hc : cur = []
  · rw [flushCurrent, if_neg (by simpa using hc)]
    exact ⟨hreg, hadj, fun h => absurd hc h, fun _ => rfl⟩
  · have hC1 : flushCurrent C cur = C ++ [(cur, false)] := by
      rw [flushCurrent, if_pos hc]
    refine ⟨?_, ?_, fun _ => by rw [hC1]; exact List.getLast?_concat _,
      fun h => absurd h hc⟩
    · intro c hcmem hcf
      rw [hC1] at hcmem
      rcases List.mem_append.mp hcmem with h | h
      · exact hreg c h hcf
      · simp at h
        rw [h]
        exact ⟨hcur, hc⟩
    · rw [hC1]
      refine List.chain'_append.mpr ⟨hadj, List.chain'_singleton _, ?_⟩
      intro x hx y hy
      simp at hy
      subst hy
      intro hx2 _
      rcases hlink hc with hC | ⟨last, hlast, hcase⟩
      · rw [show C = [] from hC] at hx
        simp at hx
      · rw [show C.getLast? = some last from hlast] at hx
        simp at hx
        subst hx
        rcases hcase with htag | hpre
        · rw [htag] at hx2
          simp at hx2
        · exact hpre

/-- The loop body preserves the invariant (for stripped non-empty
paragraphs, `0 < overlap` and `overlap < maximum`). -/
theorem chunkStep_inv (target maximum overlap : Nat) (hov : 0 < overlap)
    (hom : overlap < maximum) (st : List (List Char × Bool) × List Char)
    (para : List Char) (hps : pyStrip para = para) (hpne : para ≠ [])
    (hinv : StInv overlap st) :
    StInv overlap (chunkStep target maximum overlap st para) := by
  obtain ⟨C, cur⟩ := st
  obtain ⟨hreg, hcur, hadj, hlink, hemp⟩ := hinv
  by_cases hmerge : cur.length + para.length + 2 ≤ target
  · have hstep : chunkStep target maximum overlap (C, cur) para =
        (C, pyStrip (cur ++ nl2 ++ para)) := by
      simp [chunkStep, hmerge]
    rw [hstep]
    by_cases hc : cur = []
    · have hval : pyStrip (cur ++ nl2 ++ para) = para := by
        rw [hc, List.nil_append]
        exact pyStrip_nl2 hps
      rw [hval]
      refine ⟨hreg, hps, hadj, ?_, fun hpe => absurd hpe hpne⟩
      intro _
      rcases hemp hc with hC | ⟨last, h1, h2⟩
      · exact Or.inl hC
      · exact Or.inr ⟨last, h1, Or.inl h2⟩
    · have hlcur : pyLStrip cur = cur := stripped_lstrip hcur
      have hval : pyStrip (cur ++ nl2 ++ para) = cur ++ nl2 ++ para := by
        rw [pyStrip_glue (by rw [hlcur]; exact hc) hps hpne, hlcur]
      rw [hval]
      have hne' : cur ++ nl2 ++ para ≠ [] := by simp [nl2]
      refine ⟨hreg, hval, hadj, ?_, fun h => absurd h hne'⟩
      intro _
      rcases hlink hc with hC | ⟨last, h1, h2⟩
      · exact Or.inl hC
      · refine Or.inr ⟨last, h1, ?_⟩
        rcases h2 with ht | hpre
        · exact Or.inl ht
        · refine Or.inr (hpre.trans ?_)
          rw [List.append_assoc]
          exact List.prefix_append _ _
  · obtain ⟨freg, fadj, flast, fid⟩ :=
      flush_spec overlap ⟨hreg, hcur, hadj, hlink, hemp⟩
    by_cases hhard : maximum < para.length
    · have hstep : chunkStep target maximum overlap (C, cur) para =
          (flushCurrent C cur ++ (hardSplit para maximum overlap).map (fun c => (c, true)),
            []) := by
        simp [chunkStep, hmerge, hhard]
      rw [hstep]
      have hpne' : (hardSplit para maximum overlap).map
          (fun c => ((c : List Char), true)) ≠ [] := by
        have hlp : 0 < para.length := by omega
        have hstp : 0 < maximum - overlap := by omega
        simp only [hardSplit, pyRange, ne_eq, List.map_eq_nil_iff, List.range'_eq_nil]
        intro hdiv
        rw [Nat.div_eq_zero_iff hstp] at hdiv
        omega
      refine ⟨?_, rfl, ?_, fun h => absurd rfl h, fun _ => ?_⟩
      · intro c hcmem hcf
        rcases List.mem_append.mp hcmem with h | h
        · exact freg c h hcf
        · exfalso
          obtain ⟨x, _, rfl⟩ := List.mem_map.mp h
          simp at hcf
      · refine List.chain'_append.mpr ⟨fadj, chain'_tagTrue overlap _, ?_⟩
        intro x hx y hy
        intro _ hy2
        exfalso
        have hym := List.mem_of_mem_head? hy
        obtain ⟨q, _, rfl⟩ := List.mem_map.mp hym
        simp at hy2
      · have hgl : (flushCurrent C cur ++
            (hardSplit para maximum overlap).map (fun c => (c, true))).getLast? =
            ((hardSplit para maximum overlap).map (fun c => (c, true))).getLast? :=
          List.getLast?_append_of_ne_nil _ hpne'
        cases hg : ((hardSplit para maximum overlap).map (fun c => (c, true))).getLast? with
        | none =>
          exfalso
          cases hfc : (hardSplit para maximum overlap).map (fun c => ((c : List Char), true)) with
          | nil => exact hpne' hfc
          | cons a t =>
            rw [hfc] at hg
            simp at hg
        | some z =>
          have hzmem : z ∈ (hardSplit para maximum overlap).map (fun c => (c, true)) :=
            List.mem_of_mem_getLast? (by rw [hg]; rfl)
          obtain ⟨q, _, rfl⟩ := List.mem_map.mp hzmem
          exact Or.inr ⟨(q, true), by rw [hgl, hg], rfl⟩
    · cases hC1 : (flushCurrent C cur).getLast? with
      | none =>
        have hC1nil : flushCurrent C cur = [] := by
          cases hfc : flushCurrent C cur with
          | nil => rfl
          | cons a t =>
            rw [hfc] at hC1
            simp at hC1
        have hstep : chunkStep target maximum overlap (C, cur) para = ([], para) := by
          simp [chunkStep, hmerge, hhard, hC1, hC1nil]
        rw [hstep]
        exact ⟨by simp, hps, List.chain'_nil, fun _ => Or.inl rfl, fun h => absurd h hpne⟩
      | some last =>
        have hstep : chunkStep target maximum overlap (C, cur) para =
            (flushCurrent C cur, pyStrip (pyTakeNeg overlap last.1 ++ nl2 ++ para)) := by
          simp [chunkStep, hmerge, hhard, hC1]
        rw [hstep]
        by_cases htag : last.2 = true
        · exact ⟨freg, pyStrip_idem _, fadj,
            fun _ => Or.inr ⟨last, hC1, Or.inl htag⟩,
            fun _ => Or.inr ⟨last, hC1, htag⟩⟩
        · have hfalse : last.2 = false := by
            simpa using htag
          have hlastmem : last ∈ flushCurrent C cur :=
            List.mem_of_mem_getLast? (by rw [hC1]; rfl)
          obtain ⟨hstr, hnel⟩ := freg last hlastmem hfalse
          have hlne : pyLStrip (pyTakeNeg overlap last.1) ≠ [] :=
            endsNonWS_lstrip_ne (takeNeg_endsNonWS hov hstr hnel)
          have hval : pyStrip (pyTakeNeg overlap last.1 ++ nl2 ++ para) =
              pyLStrip (pyTakeNeg overlap last.1) ++ nl2 ++ para :=
            pyStrip_glue hlne hps hpne
          rw [hval]
          have hval2 : pyStrip (pyLStrip (pyTakeNeg overlap last.1) ++ nl2 ++ para) =
              pyLStrip (pyTakeNeg overlap last.1) ++ nl2 ++ para := by
            rw [pyStrip_glue (by rw [pyLStrip_idem]; exact hlne) hps hpne, pyLStrip_idem]
          have hne' : pyLStrip (pyTakeNeg overlap last.1) ++ nl2 ++ para ≠ [] := by
            simp [nl2]
          refine ⟨freg, hval2, fadj, ?_, fun h => absurd h hne'⟩
          intro _
          refine Or.inr ⟨last, hC1, Or.inr ?_⟩
          rw [List.append_assoc]
          exact List.prefix_append _ _

/-- The whole loop preserves the invariant. -/
theorem foldl_inv (target maximum overlap : Nat) (hov : 0 < overlap)
    (hom : overlap < maximum) :
    ∀ (ps : List (List Char)) (st : List (List Char × Bool) × List Char),
      (∀ p ∈ ps, pyStrip p = p ∧ p ≠ []) → StInv overlap st →
      StInv overlap (ps.foldl (chunkStep target maximum overlap) st) := by
  intro ps
  induction ps with
  | nil => intro st _ h; exact h
  | cons p t ih =>
    intro st hp hinv
    rw [List.foldl_cons]
    refine ih _ (fun q hq => hp q (List.mem_cons_of_mem _ hq)) ?_
    obtain ⟨h1, h2⟩ := hp p (List.mem_cons_self _ _)
    exact chunkStep_inv target maximum overlap hov hom st p h1 h2 hinv

/-- The invariant at the start of the loop. -/
theorem stInv_init (overlap : Nat) : StInv overlap ([], []) :=
  ⟨by simp, rfl, List.chain'_nil, fun h => absurd rfl h, fun _ => Or.inl rfl⟩

/-- Adjacent-chunk property of the whole (tagged) output. -/
theorem chunkTagged_chain (text : List Char) (target maximum overlap : Nat)
    (hov : 0 < overlap) (hom : overlap < maximum) :
    (chunkTagged text target maximum overlap).Chain' (adjRel overlap) := by
  rw [chunkTagged]
  by_cases hp : paragraphsOf text = []
  · simp only [hp, if_pos]
    exact List.chain'_nil
  · simp only [hp, if_neg, ite_false]
    have hinv : StInv overlap
        ((paragraphsOf text).foldl (chunkStep target maximum overlap) ([], [])) :=
      foldl_inv target maximum overlap hov hom (paragraphsOf text) ([], [])
        (paragraphsOf_spec text) (stInv_init overlap)
    exact (flush_spec overlap hinv).2.1

end DocumentService

/-! ### Claim C6 -/

/-- C6, counterexample: with `target = 10`, `maximum = 20`,
`overlap = 5` (satisfying `0 < overlap < target < maximum`), the text
`"aa bbbb\n\ncccccc"` produces two adjacent regular chunks
`"aa bbbb"` and `"bbbb\n\ncccccc"`.  The last 5 characters of the first
chunk are `" bbbb"`, but `strip()` removes the leading space when the
next chunk is built, so no suffix of the first chunk of length ≥ 5 is
a prefix of the second chunk: the claimed `overlap`-character sharing
fails. -/
theorem C6_counterexample :
    DocumentService.chunkTagged ("aa bbbb\n\ncccccc".toList) 10 20 5 =
        [("aa bbbb".toList, false), ("bbbb\n\ncccccc".toList, false)] ∧
      pyTakeNeg 5 ("aa bbbb".toList) = " bbbb".toList ∧
      ¬ (" bbbb".toList <+: "bbbb\n\ncccccc".toList) ∧
      ¬ ("a bbbb".toList <+: "bbbb\n\ncccccc".toList) ∧
      ¬ ("aa bbbb".toList <+: "bbbb\n\ncccccc".toList) ∧
      0 < 5 ∧ 5 < 10 ∧ 10 < 20 := by
  refine ⟨by decide, by decide, by decide, by decide, by decide, by decide, by decide,
    by decide⟩

/-- C6 (amended): in every `chunk_text` output (with `0 < overlap` and
`overlap < maximum`, so the hard-split step is positive), whenever two
adjacent tagged chunks are both regular (paragraph-merged), the later
chunk starts with the *left-stripped* last `overlap` characters of the
earlier chunk: the overlap carry-over holds up to the leading
whitespace that `strip()` removes from the carried tail. -/
theorem C6_amended (text : List Char) (target maximum overlap : Nat)
    (hov : 0 < overlap) (hom : overlap < maximum) :
    (DocumentService.chunkTagged text target maximum overlap).Chain'
      (fun a b => a.2 = false → b.2 = false →
        pyLStrip (pyTakeNeg overlap a.1) <+: b.1) :=
  DocumentService.chunkTagged_chain text target maximum overlap hov hom

/-- C6 amended, witness at the counterexample input. -/
theorem C6_amended_witness :
    (DocumentService.chunkTagged ("aa bbbb\n\ncccccc".toList) 10 20 5).Chain'
      (fun a b => a.2 = false → b.2 = false →
        pyLStrip (pyTakeNeg 5 a.1) <+: b.1) :=
  C6_amended ("aa bbbb\n\ncccccc".toList) 10 20 5 (by decide) (by decide)

/-! ### Non-emptiness of emitted chunks (towards C10) -/

namespace DocumentService

theorem pyRange_lt {n step : Nat} (hstep : 0 < step) (hn : 0 < n) :
    ∀ i ∈ pyRange n step, i < n := by
  intro i hi
  rw [pyRange, List.mem_range'] at hi
  obtain ⟨j, hj, rfl⟩ := hi
  have hcnt : (n + step - 1) / step = (n - 1) / step + 1 := by
    have h : n + step - 1 = (n - 1) + step := by omega
    rw [h, Nat.add_div_right _ hstep]
  rw [hcnt] at hj
  have hj' : j ≤ (n - 1) / step := by omega
  have hle : step * j ≤ step * ((n - 1) / step) := Nat.mul_le_mul_left _ hj'
  have h2 : step * ((n - 1) / step) ≤ n - 1 := by
    rw [Nat.mul_comm]
    exact Nat.div_mul_le_self (n - 1) step
  omega

theorem hardSplit_pieces_nonempty {para : List Char} {maximum overlap : Nat}
    (hom : overlap < maximum) (hlen : maximum < para.length) :
    ∀ c ∈ hardSplit para maximum overlap, c ≠ [] := by
  intro c hc
  rw [hardSplit, List.mem_map] at hc
  obtain ⟨i, hi, rfl⟩ := hc
  have hilt := pyRange_lt (by omega : 0 < maximum - overlap) (by omega : 0 < para.length) i hi
  rw [pySlice]
  intro hnil
  have hl := congrArg List.length hnil
  rw [List.length_take, List.length_drop] at hl
  simp at hl
  omega

theorem flush_nonempty {C : List (List Char × Bool)} {cur : List Char}
    (h : ∀ c ∈ C, c.1 ≠ []) : ∀ c ∈ flushCurrent C cur, c.1 ≠ [] := by
  intro c hc
  rw [flushCurrent] at hc
  by_cases hcur : cur = []
  · rw [if_neg (by simp [hcur])] at hc
    exact h c hc
  · rw [if_pos hcur] at hc
    rcases List.mem_append.mp hc with h1 | h1
    · exact h c h1
    · simp at h1
      rw [h1]
      exact hcur

theorem chunkStep_nonempty (target maximum overlap : Nat) (hom : overlap < maximum)
    (st : List (List Char × Bool) × List Char) (para : List Char)
    (h : ∀ c ∈ st.1, c.1 ≠ []) :
    ∀ c ∈ (chunkStep target maximum overlap st para).1, c.1 ≠ [] := by
  obtain ⟨C, cur⟩ := st
  by_cases hmerge : cur.length + para.length + 2 ≤ target
  · intro c hc
    simp only [chunkStep, hmerge, if_pos] at hc
    exact h c hc
  · by_cases hhard : maximum < para.length
    · have hstep : chunkStep target maximum overlap (C, cur) para =
          (flushCurrent C cur ++
            (hardSplit para maximum overlap).map (fun c => (c, true)), []) := by
        simp [chunkStep, hmerge, hhard]
      rw [hstep]
      intro c hc
      rcases List.mem_append.mp hc with h1 | h1
      · exact flush_nonempty h c h1
      · obtain ⟨q, hq, rfl⟩ := List.mem_map.mp h1
        exact hardSplit_pieces_nonempty hom hhard q hq
    · have hstep1 : (chunkStep target maximum overlap (C, cur) para).1 =
          flushCurrent C cur := by
        cases hC1 : (flushCurrent C cur).getLast? <;>
          simp [chunkStep, hmerge, hhard, hC1]
      rw [hstep1]
      exact flush_nonempty h

theorem foldl_nonempty (target maximum overlap : Nat) (hom : overlap < maximum) :
    ∀ (ps : List (List Char)) (st : List (List Char × Bool) × List Char),
      (∀ c ∈ st.1, c.1 ≠ []) →
      ∀ c ∈ (ps.foldl (chunkStep target maximum overlap) st).1, c.1 ≠ [] := by
  intro ps
  induction ps with
  | nil => intro st h; exact h
  | cons p t ih =>
    intro st h
    rw [List.foldl_cons]
    exact ih _ (chunkStep_nonempty target maximum overlap hom st p h)

end DocumentService

/-! ### Claim C10 -/

/-- C10: for every input text and all parameters with
`overlap < maximum` (which is what keeps the hard-split window step
positive), every string returned by `chunk_text` is non-empty: merged
chunks are only flushed behind the `if current:` truthiness guard, and
every hard-split slice starts inside the paragraph with a positive
window size. -/
theorem C10_chunks_nonempty (text : List Char) (target maximum overlap : Nat)
    (hom : overlap < maximum) :
    ∀ c ∈ DocumentService.chunk_text text target maximum overlap, c ≠ [] := by
  intro c hc
  rw [DocumentService.chunk_text, List.mem_map] at hc
  obtain ⟨q, hmem, rfl⟩ := hc
  rw [DocumentService.chunkTagged] at hmem
  by_cases hp : DocumentService.paragraphsOf text = []
  · simp [hp] at hmem
  · simp only [hp, if_neg, ite_false] at hmem
    have hfold : ∀ c ∈ ((DocumentService.paragraphsOf text).foldl
        (DocumentService.chunkStep target maximum overlap) ([], [])).1, c.1 ≠ [] :=
      DocumentService.foldl_nonempty target maximum overlap hom _ _ (by simp)
    exact DocumentService.flush_nonempty hfold q hmem

/-- C10, witness: a concrete chunk of a concrete run is non-empty. -/
theorem C10_chunks_nonempty_witness : "aaaaaaaaaaaa".toList ≠ [] :=
  C10_chunks_nonempty ("aaaaaaaaaaaa\n\nbbbbbbbbbbbbbbbbbb".toList) 10 20 5
    (by decide) _ (by decide)

/-! ### Length bounds of emitted chunks (towards C5) -/

namespace DocumentService

theorem pySlice_length_le (l : List Char) (i m : Nat) : (pySlice l i m).length ≤ m := by
  rw [pySlice, List.length_take]
  exact Nat.min_le_left _ _

theorem pyTakeNeg_length_le {n : Nat} (hn : 0 < n) (l : List Char) :
    (pyTakeNeg n l).length ≤ n := by
  rw [pyTakeNeg, if_neg (by omega : ¬ n = 0)]
  rw [List.length_drop]
  omega

theorem glue_length (x para : List Char) :
    (pyStrip (x ++ nl2 ++ para)).length ≤ x.length + 2 + para.length := by
  calc (pyStrip (x ++ nl2 ++ para)).length ≤ (x ++ nl2 ++ para).length :=
        pyStrip_length_le _
    _ = x.length + 2 + para.length := by
        simp [nl2]
        omega

/-- The loop body preserves the length bounds: every chunk is at most
`maximum + overlap + 2` long, hard-split chunks at most `maximum`, and
`current` at most `maximum + overlap + 2`. -/
theorem chunkStep_bounds (target maximum overlap : Nat) (hov : 0 < overlap)
    (htm : target < maximum) (st : List (List Char × Bool) × List Char)
    (para : List Char)
    (h1 : ∀ c ∈ st.1, c.1.length ≤ maximum + overlap + 2 ∧
      (c.2 = true → c.1.length ≤ maximum))
    (h2 : st.2.length ≤ maximum + overlap + 2) :
    (∀ c ∈ (chunkStep target maximum overlap st para).1,
        c.1.length ≤ maximum + overlap + 2 ∧ (c.2 = true → c.1.length ≤ maximum)) ∧
      (chunkStep target maximum overlap st para).2.length ≤ maximum + overlap + 2 := by
  obtain ⟨C, cur⟩ := st
  have h2' : cur.length ≤ maximum + overlap + 2 := h2
  have hflush : ∀ c ∈ flushCurrent C cur,
      c.1.length ≤ maximum + overlap + 2 ∧ (c.2 = true → c.1.length ≤ maximum) := by
    intro c hc
    rw [flushCurrent] at hc
    by_cases hcur : cur = []
    · rw [if_neg (by simp [hcur])] at hc
      exact h1 c hc
    · rw [if_pos hcur] at hc
      rcases List.mem_append.mp hc with hm | hm
      · exact h1 c hm
      · simp at hm
        rw [hm]
        exact ⟨h2', fun ht => by simp at ht⟩
  by_cases hmerge : cur.length + para.length + 2 ≤ target
  · have hstep : chunkStep target maximum overlap (C, cur) para =
        (C, pyStrip (cur ++ nl2 ++ para)) := by
      simp [chunkStep, hmerge]
    rw [hstep]
    refine ⟨h1, ?_⟩
    have hg := glue_length cur para
    show (pyStrip (cur ++ nl2 ++ para)).length ≤ maximum + overlap + 2
    omega
  · by_cases hhard : maximum < para.length
    · have hstep : chunkStep target maximum overlap (C, cur) para =
          (flushCurrent C cur ++
            (hardSplit para maximum overlap).map (fun c => (c, true)), []) := by
        simp [chunkStep, hmerge, hhard]
      rw [hstep]
      refine ⟨?_, by simp⟩
      intro c hc
      rcases List.mem_append.mp hc with hm | hm
      · exact hflush c hm
      · obtain ⟨q, hq, rfl⟩ := List.mem_map.mp hm
        rw [hardSplit, List.mem_map] at hq
        obtain ⟨i, _, rfl⟩ := hq
        have hsl := pySlice_length_le para i maximum
        refine ⟨?_, fun _ => ?_⟩
        · show (pySlice para i maximum).length ≤ maximum + overlap + 2
          omega
        · exact hsl
    · cases hC1 : (flushCurrent C cur).getLast? with
      | none =>
        have hstep : (chunkStep target maximum overlap (C, cur) para) =
            (flushCurrent C cur, para) := by
          simp [chunkStep, hmerge, hhard, hC1]
        rw [hstep]
        refine ⟨hflush, ?_⟩
        show para.length ≤ maximum + overlap + 2
        omega
      | some last =>
        have hstep : chunkStep target maximum overlap (C, cur) para =
            (flushCurrent C cur,
              pyStrip (pyTakeNeg overlap last.1 ++ nl2 ++ para)) := by
          simp [chunkStep, hmerge, hhard, hC1]
        rw [hstep]
        refine ⟨hflush, ?_⟩
        have hg := glue_length (pyTakeNeg overlap last.1) para
        have ht := pyTakeNeg_length_le hov last.1
        show (pyStrip (pyTakeNeg overlap last.1 ++ nl2 ++ para)).length ≤
          maximum + overlap + 2
        omega

theorem foldl_bounds (target maximum overlap : Nat) (hov : 0 < overlap)
    (htm : target < maximum) :
    ∀ (ps : List (List Char)) (st : List (List Char × Bool) × List Char),
      (∀ c ∈ st.1, c.1.length ≤ maximum + overlap + 2 ∧
        (c.2 = true → c.1.length ≤ maximum)) →
      st.2.length ≤ maximum + overlap + 2 →
      (∀ c ∈ (ps.foldl (chunkStep target maximum overlap) st).1,
          c.1.length ≤ maximum + overlap + 2 ∧ (c.2 = true → c.1.length ≤ maximum)) ∧
        (ps.foldl (chunkStep target maximum overlap) st).2.length ≤
          maximum + overlap + 2 := by
  intro ps
  induction ps with
  | nil => intro st h1 h2; exact ⟨h1, h2⟩
  | cons p t ih =>
    intro st h1 h2
    rw [List.foldl_cons]
    obtain ⟨g1, g2⟩ := chunkStep_bounds target maximum overlap hov htm st p h1 h2
    exact ih _ g1 g2

theorem flush_bounds {C : List (List Char × Bool)} {cur : List Char}
    {maximum overlap : Nat}
    (h1 : ∀ c ∈ C, c.1.length ≤ maximum + overlap + 2 ∧
      (c.2 = true → c.1.length ≤ maximum))
    (h2 : cur.length ≤ maximum + overlap + 2) :
    ∀ c ∈ flushCurrent C cur,
      c.1.length ≤ maximum + overlap + 2 ∧ (c.2 = true → c.1.length ≤ maximum) := by
  intro c hc
  rw [flushCurrent] at hc
  by_cases hcur : cur = []
  · rw [if_neg (by simp [hcur])] at hc
    exact h1 c hc
  · rw [if_pos hcur] at hc
    rcases List.mem_append.mp hc with hm | hm
    · exact h1 c hm
    · simp at hm
      rw [hm]
      exact ⟨h2, fun ht => by simp at ht⟩

/-- Length bounds over the whole tagged output. -/
theorem chunkTagged_bounds (text : List Char) (target maximum overlap : Nat)
    (hov : 0 < overlap) (htm : target < maximum) :
    ∀ c ∈ chunkTagged text target maximum overlap,
      c.1.length ≤ maximum + overlap + 2 ∧ (c.2 = true → c.1.length ≤ maximum) := by
  intro c hc
  rw [chunkTagged] at hc
  by_cases hp : paragraphsOf text = []
  · simp [hp] at hc
  · simp only [hp, if_neg, ite_false] at hc
    obtain ⟨g1, g2⟩ := foldl_bounds target maximum overlap hov htm
      (paragraphsOf text) ([], []) (by simp) (by simp)
    exact flush_bounds g1 g2 c hc

end DocumentService

/-! ### Claim C5 -/

/-- C5, counterexample.  Part A: with `target = 10`, `maximum = 20`,
`overlap = 5` (so `overlap < target < maximum`) and two paragraphs of
lengths 12 and 18 — both ≤ `maximum`, so no hard split happens — the
second emitted chunk is `tail + "\n\n" + paragraph` of length
`5 + 2 + 18 = 25 > maximum`: chunks can exceed `maximum` even though
no single paragraph does.  Part B: with `target = 7`, `maximum = 10`,
`overlap = 6`, a single 13-character paragraph is hard-split into
pieces of lengths 10, 9, 5, 1: the non-final second piece has length
9 ≠ `maximum`, refuting "each hard-split piece has length exactly
`maximum` except possibly the last". -/
theorem C5_counterexample :
    DocumentService.paragraphsOf ("aaaaaaaaaaaa\n\nbbbbbbbbbbbbbbbbbb".toList) =
        ["aaaaaaaaaaaa".toList, "bbbbbbbbbbbbbbbbbb".toList] ∧
      ("aaaaaaaaaaaa".toList).length = 12 ∧
      ("bbbbbbbbbbbbbbbbbb".toList).length = 18 ∧
      DocumentService.chunk_text ("aaaaaaaaaaaa\n\nbbbbbbbbbbbbbbbbbb".toList) 10 20 5 =
        ["aaaaaaaaaaaa".toList, "aaaaa\n\nbbbbbbbbbbbbbbbbbb".toList] ∧
      ("aaaaa\n\nbbbbbbbbbbbbbbbbbb".toList).length = 25 ∧
      DocumentService.chunkTagged ("ccccccccccccc".toList) 7 10 6 =
        [("cccccccccc".toList, true), ("ccccccccc".toList, true),
          ("ccccc".toList, true), ("c".toList, true)] ∧
      ("ccccccccc".toList).length = 9 ∧
      0 < 5 ∧ 5 < 10 ∧ 10 < 20 ∧ 6 < 7 ∧ 7 < 10 := by
  refine ⟨by decide, by decide, by decide, by decide, by decide, by decide, by decide,
    by decide, by decide, by decide, by decide, by decide⟩

/-- C5 (amended): under `0 < overlap < target < maximum`, every chunk
returned by `chunk_text` has length at most `maximum + overlap + 2`
(a regular chunk can exceed `maximum` by up to `overlap + 2` because
the carried tail and the `"\n\n"` join are added on top of a paragraph
of length up to `maximum`), and every hard-split piece has length at
most `maximum` (a piece that overruns the paragraph end is shorter,
even when it is not the last piece). -/
theorem C5_amended (text : List Char) (target maximum overlap : Nat)
    (hov : 0 < overlap) (hot : overlap < target) (htm : target < maximum) :
    (∀ c ∈ DocumentService.chunk_text text target maximum overlap,
        c.length ≤ maximum + overlap + 2) ∧
      (∀ p ∈ DocumentService.chunkTagged text target maximum overlap,
        p.2 = true → p.1.length ≤ maximum) := by
  have hb := DocumentService.chunkTagged_bounds text target maximum overlap hov htm
  constructor
  · intro c hc
    rw [DocumentService.chunk_text, List.mem_map] at hc
    obtain ⟨q, hmem, rfl⟩ := hc
    exact (hb q hmem).1
  · intro p hp
    exact (hb p hp).2

/-- C5 amended, witness at a concrete input. -/
theorem C5_amended_witness :
    (∀ c ∈ DocumentService.chunk_text ("aaaaaaaaaaaa\n\nbbbbbbbbbbbbbbbbbb".toList)
        10 20 5, c.length ≤ 20 + 5 + 2) ∧
      (∀ p ∈ DocumentService.chunkTagged ("aaaaaaaaaaaa\n\nbbbbbbbbbbbbbbbbbb".toList)
        10 20 5, p.2 = true → p.1.length ≤ 20) :=
  C5_amended ("aaaaaaaaaaaa\n\nbbbbbbbbbbbbbbbbbb".toList) 10 20 5
    (by decide) (by decide) (by decide)

end Krishna
